import Mathlib

/-!
A shallow embedding of the material-extraction core of the BOQ-generator
repository: the pattern library, field extractors, record builder and
segmenter from `src/lib/material-parser.ts`, and the deduplicator module
exporting `deduplicateMaterials`.

JavaScript strings are modelled as Lean `String`s (all inputs of interest are
ASCII/BMP, so UTF-16 `length` agrees with codepoint length), JavaScript
numbers as `ℚ` (every numeric computation in the embedded code is exact
decimal arithmetic), and the dynamic `rawData` bags as ordered association
lists of JSON-like values.  JavaScript regular expressions are modelled by a
small backtracking engine (`rxMatch`) with JS semantics: leftmost match,
greedy quantifiers with backtracking, ordered alternation, numbered capture
groups, `^`/`$` anchors with optional multiline behaviour and `\b` word
boundaries.  The engine is fuel-indexed; the fuel is always sufficient for
the embedded patterns because each of their quantified subpatterns consumes
at least one character per iteration.
-/

/-- The whitespace test used for JavaScript `trim()`, `\s` and `parseInt`
skipping (restricted to the code points that can occur in this code base). -/
def jsIsSpace (c : Char) : Bool :=
  c == ' ' || c == '\t' || c == '\n' || c == '\r' || c == '\x0b' ||
  c == '\x0c' || c == ' '

/-- Character-list version of JavaScript `String.prototype.trim`. -/
def trimL (cs : List Char) : List Char :=
  ((cs.dropWhile jsIsSpace).reverse.dropWhile jsIsSpace).reverse

/-- JavaScript `s.trim()`. -/
def jsTrim (s : String) : String :=
  String.mk (trimL s.data)

/-- JavaScript `s.toLowerCase()` (ASCII range, which covers all keywords and
inputs appearing in the code). -/
def jsToLower (s : String) : String :=
  String.mk (s.data.map Char.toLower)

/-- Whether the first list is a prefix of the second. -/
def isPrefixL : List Char → List Char → Bool
  | [], _ => true
  | _ :: _, [] => false
  | a :: as, b :: bs => a == b && isPrefixL as bs

/-- Whether the first list occurs contiguously inside the second. -/
def isInfixL (sub : List Char) : List Char → Bool
  | [] => isPrefixL sub []
  | c :: rest => isPrefixL sub (c :: rest) || isInfixL sub rest

/-- JavaScript `s.includes(sub)`. -/
def jsIncludes (s sub : String) : Bool :=
  isInfixL sub.data s.data

/-- JavaScript `Array.prototype.join(sep)`. -/
def joinSep (sep : String) : List String → String
  | [] => ""
  | [s] => s
  | s :: rest => s ++ sep ++ joinSep sep rest

/-- Truthiness of a JavaScript `string | undefined` value (`undefined` and the
empty string are falsy). -/
def tru : Option String → Bool
  | some s => s != ""
  | none => false

/-- JavaScript `x || undefined` on a `string | undefined` value. -/
def jsOrUndef (o : Option String) : Option String :=
  match o with
  | some s => if s = "" then none else some s
  | none => none

/-- Truthiness of a JavaScript `number | undefined` value (`undefined`, `0`
are falsy; `NaN` cannot arise in the embedded computations). -/
def truQ : Option ℚ → Bool
  | some q => q != 0
  | none => false

/-- Splitting on the paragraph separator regex `/\n\n|\r\n\r\n/`: at each
position the alternative `\n\n` is tried first, then `\r\n\r\n`; positions
with no separator match are skipped.  `split` always yields at least one
(possibly empty) piece. -/
def splitParasL : List Char → List (List Char)
  | [] => [[]]
  | '\n' :: '\n' :: rest => [] :: splitParasL rest
  | '\r' :: '\n' :: '\r' :: '\n' :: rest => [] :: splitParasL rest
  | c :: rest =>
    match splitParasL rest with
    | [] => [[c]]
    | p :: ps => (c :: p) :: ps

/-- JavaScript `text.split(/\n\n|\r\n\r\n/)`. -/
def splitParas (s : String) : List String :=
  (splitParasL s.data).map String.mk

/-- Splitting on the line separator regex `/\r?\n/` (a lone `\r` is not a
separator). -/
def splitLinesL : List Char → List (List Char)
  | [] => [[]]
  | '\r' :: '\n' :: rest => [] :: splitLinesL rest
  | '\n' :: rest => [] :: splitLinesL rest
  | c :: rest =>
    match splitLinesL rest with
    | [] => [[c]]
    | p :: ps => (c :: p) :: ps

/-- JavaScript `para.split(/\r?\n/)`. -/
def splitLines (s : String) : List String :=
  (splitLinesL s.data).map String.mk

/-- Exact rational addition, written through `Rat.divInt` so that concrete
values reduce inside the kernel (the library's `Rat.add` is `@[irreducible]`);
`qAdd_eq` below proves it equal to `+`. -/
def qAdd (a b : ℚ) : ℚ :=
  Rat.divInt (a.num * (b.den : ℤ) + b.num * (a.den : ℤ)) ((a.den : ℤ) * (b.den : ℤ))

/-- Exact rational multiplication through `Rat.divInt`; equals `*`. -/
def qMul (a b : ℚ) : ℚ :=
  Rat.divInt (a.num * b.num) ((a.den : ℤ) * (b.den : ℤ))

/-- Exact rational division through `Rat.divInt`; equals `/`. -/
def qDiv (a b : ℚ) : ℚ :=
  Rat.divInt (a.num * (b.den : ℤ)) ((a.den : ℤ) * b.num)

/-- Numeric value of a list of decimal digit characters. -/
def natOfDigits (ds : List Char) : ℕ :=
  ds.foldl (fun n c => 10 * n + (c.toNat - 48)) 0

/-- JavaScript `parseFloat` restricted to the shapes that the embedded
capture groups can produce: `digits` or `digits.digits`.  Any other input is
`none`, playing the role of `NaN`. -/
def parseDec (s : String) : Option ℚ :=
  let (ip, rest) := s.data.span Char.isDigit
  if ip = [] then none
  else
    match rest with
    | [] => some (natOfDigits ip)
    | '.' :: fp =>
      if fp ≠ [] ∧ fp.all Char.isDigit then
        some (qAdd (natOfDigits ip : ℚ) (qDiv (natOfDigits fp : ℚ) ((10 ^ fp.length : ℕ) : ℚ)))
      else none
    | _ => none

/-- JavaScript `parseInt(s, 10)`: skip leading whitespace, optional sign,
parse the longest prefix of decimal digits; `none` plays the role of `NaN`. -/
def jsParseInt (s : String) : Option Int :=
  let cs := s.data.dropWhile jsIsSpace
  let (sgn, cs2) : Int × List Char :=
    match cs with
    | '-' :: r => (-1, r)
    | '+' :: r => (1, r)
    | r => (1, r)
  let ds := cs2.takeWhile Char.isDigit
  if ds = [] then none else some (sgn * (natOfDigits ds : Int))

/-- JavaScript `String(q)` for the numbers that reach `normalizeKey`.
Integers print exactly as in JavaScript; non-integral rationals print as
fractions where JavaScript prints decimal expansions — both renderings are
injective, so grouping behaviour is unaffected. -/
def qToString (q : ℚ) : String :=
  if q.den = 1 then toString q.num
  else toString q.num ++ "/" ++ toString q.den

/-- JSON-like dynamic values, modelling the `any`-typed contents of the
`rawData` provenance bags.  `undef` models JavaScript `undefined`. -/
inductive JVal where
  | str (s : String)
  | num (q : ℚ)
  | bool (b : Bool)
  | obj (fields : List (String × JVal))
  | null
  | undef

/-- JavaScript truthiness of a dynamic value. -/
def JVal.truthy : JVal → Bool
  | .str s => s != ""
  | .num q => q != 0
  | .bool b => b
  | .obj _ => true
  | .null => false
  | .undef => false

/-- The loose `x != null` test (`false` exactly on `null` and `undefined`). -/
def JVal.nonNullish : JVal → Bool
  | .null => false
  | .undef => false
  | _ => true

/-- First binding of a key in an ordered association list (JavaScript object
property read; keys are unique in every object the embedded code builds). -/
def lookupKey : List (String × JVal) → String → Option JVal
  | [], _ => none
  | (k, v) :: rest, key => if k = key then some v else lookupKey rest key

/-- JavaScript property access `o[k]`, with `undefined` for a missing key. -/
def getJ (l : List (String × JVal)) (key : String) : JVal :=
  (lookupKey l key).getD (.undef)

/-- JavaScript property write `{...o, k: v}`: replaces the binding in place
when the key exists, otherwise appends it (preserving enumeration order). -/
def setKey : List (String × JVal) → String → JVal → List (String × JVal)
  | [], key, v => [(key, v)]
  | (k, w) :: rest, key, v =>
    if k = key then (k, v) :: rest else (k, w) :: setKey rest key v

/-- Abstract syntax of the regular-expression fragment used by the embedded
patterns: character classes, concatenation, ordered alternation, greedy
`*`/`?`, numbered capture groups, `^`/`$` anchors and `\b`. -/
inductive Rx where
  | eps
  | cls (p : Char → Bool)
  | seq (a b : Rx)
  | alt (a b : Rx)
  | star (r : Rx)
  | opt (r : Rx)
  | grp (n : Nat) (r : Rx)
  | bol
  | eol
  | wb

/-- Concatenation of a list of patterns. -/
def Rx.cat (rs : List Rx) : Rx := rs.foldr Rx.seq Rx.eps

/-- A pattern that never matches (used as the end of an alternation chain). -/
def rxFail : Rx := Rx.cls (fun _ => false)

/-- Ordered alternation over a list (leftmost alternative preferred, exactly
as in a JavaScript `a|b|c` group). -/
def rxAlts (rs : List Rx) : Rx := rs.foldr Rx.alt rxFail

/-- A literal character (case-sensitive). -/
def rxCh (c : Char) : Rx := Rx.cls (fun d => d == c)

/-- A literal character under the `i` flag. -/
def rxChI (c : Char) : Rx := Rx.cls (fun d => d.toLower == c.toLower)

/-- A literal string (case-sensitive). -/
def rxStr (s : String) : Rx := Rx.cat (s.data.map rxCh)

/-- A literal string under the `i` flag. -/
def rxStrI (s : String) : Rx := Rx.cat (s.data.map rxChI)

/-- Greedy `r+`. -/
def rxPlus (r : Rx) : Rx := Rx.seq r (Rx.star r)

/-- Greedy `r{0,n}` as a nest of `?`s (the greedy engine tries the longest
repetition first, matching JavaScript's preference order). -/
def rxUpTo (r : Rx) : Nat → Rx
  | 0 => Rx.eps
  | n + 1 => Rx.opt (Rx.seq r (rxUpTo r n))

/-- Greedy `r{1,n}`. -/
def rxRep1 (r : Rx) (n : Nat) : Rx := Rx.seq r (rxUpTo r (n - 1))

/-- The `\d` class. -/
def rxDigit : Rx := Rx.cls Char.isDigit

/-- The `\s` class. -/
def rxSpace : Rx := Rx.cls jsIsSpace

/-- `\s*`. -/
def rxSws : Rx := Rx.star rxSpace

/-- JavaScript `\w` membership, for `\b`. -/
def isWordChar (c : Char) : Bool := c.isAlpha || c.isDigit || c == '_'

/-- Line terminators recognised by multiline `^`/`$`. -/
def isLineTerm : Option Char → Bool
  | some c => c == '\n' || c == '\r'
  | none => false

/-- Capture-group environment of a match in progress. -/
abbrev Caps := List (Nat × String)

/-- Record a capture (latest write to a group wins, as in JavaScript). -/
def setCap : Caps → Nat → String → Caps
  | [], n, v => [(n, v)]
  | (m, w) :: rest, n, v =>
    if m = n then (m, v) :: rest else (m, w) :: setCap rest n v

/-- Read back a capture group (`none` plays `undefined`). -/
def getCap : Caps → Nat → Option String
  | [], _ => none
  | (m, v) :: rest, n => if m = n then some v else getCap rest n

/-- The substring of `s` from position `i` (inclusive) to `j` (exclusive). -/
def strSlice (s : List Char) (i j : Nat) : String :=
  String.mk ((s.drop i).take (j - i))

/-- The character preceding position `i`, if any. -/
def prevChar (s : List Char) (i : Nat) : Option Char :=
  match i with
  | 0 => none
  | j + 1 => s.get? j

/-- Backtracking matcher in continuation-passing style with JavaScript
semantics.  `rxMatch m s fuel re i caps k` tries to match `re` at position
`i` of `s`, extending captures `caps`, and calls the continuation `k` with
the end position and captures of each candidate match, preferring candidates
in the JavaScript order (greedy quantifiers, leftmost alternatives).  `m` is
the multiline flag.  The fuel only bounds recursion depth; it is chosen
large enough that it is never exhausted on the embedded patterns. -/
def rxMatch (m : Bool) (s : List Char) :
    Nat → Rx → Nat → Caps → (Nat → Caps → Option (Nat × Caps)) → Option (Nat × Caps)
  | 0, _, _, _, _ => none
  | fuel + 1, re, i, caps, k =>
    match re with
    | .eps => k i caps
    | .cls p =>
      match s.get? i with
      | some c => if p c then k (i + 1) caps else none
      | none => none
    | .seq a b => rxMatch m s fuel a i caps (fun j cs => rxMatch m s fuel b j cs k)
    | .alt a b => rxMatch m s fuel a i caps k <|> rxMatch m s fuel b i caps k
    | .opt r => rxMatch m s fuel r i caps k <|> k i caps
    | .star r =>
      (rxMatch m s fuel r i caps (fun j cs =>
        if j = i then none else rxMatch m s fuel (.star r) j cs k)) <|> k i caps
    | .grp n r => rxMatch m s fuel r i caps (fun j cs => k j (setCap cs n (strSlice s i j)))
    | .bol => if i = 0 ∨ (m ∧ isLineTerm (prevChar s i)) then k i caps else none
    | .eol => if i = s.length ∨ (m ∧ isLineTerm (s.get? i)) then k i caps else none
    | .wb =>
      let pw := match prevChar s i with | some c => isWordChar c | none => false
      let cw := match s.get? i with | some c => isWordChar c | none => false
      if pw ≠ cw then k i caps else none

/-- Fuel that is ample for every embedded pattern on a given subject. -/
def rxFuel (s : List Char) : Nat := (s.length + 2) * 400

/-- Fuel-indexed scan for the leftmost match position (the fuel is one more
than the number of remaining start positions, so it never runs out). -/
def findFromGo (m : Bool) (re : Rx) (s : List Char) : Nat → Nat → Option (Nat × Nat × Caps)
  | 0, _ => none
  | fuel + 1, i =>
    if i ≤ s.length then
      match rxMatch m s (rxFuel s) re i [] (fun j cs => some (j, cs)) with
      | some (j, cs) => some (i, j, cs)
      | none => findFromGo m re s fuel (i + 1)
    else none

/-- Find the leftmost match of `re` in `s` starting at or after position
`i`: returns the start, end and captures of the match. -/
def findFrom (m : Bool) (re : Rx) (s : List Char) (i : Nat) : Option (Nat × Nat × Caps) :=
  findFromGo m re s (s.length + 2) i

/-- Iterated scanning for a global regex, as performed by `matchAll`: after
each match the scan resumes at its end (or one past it for an empty match). -/
def jsMatchAllGo (m : Bool) (re : Rx) (s : List Char) : Nat → Nat → List (String × Caps)
  | 0, _ => []
  | fuel + 1, i =>
    match findFrom m re s i with
    | none => []
    | some (a, b, cs) =>
      (strSlice s a b, cs) :: jsMatchAllGo m re s fuel (if b = a then b + 1 else b)

/-- JavaScript `text.matchAll(re)` for a `g`-flagged regex: the list of
(matched substring, captures) pairs. -/
def jsMatchAll (m : Bool) (re : Rx) (s : String) : List (String × Caps) :=
  jsMatchAllGo m re s.data (s.data.length + 2) 0

/-- JavaScript `text.match(re)` for a non-global regex: the first match. -/
def jsMatchFirst (m : Bool) (re : Rx) (s : String) : Option (String × Caps) :=
  (findFrom m re s.data 0).map (fun r => (strSlice s.data r.1 r.2.1, r.2.2))

/-- JavaScript `re.test(text)` for an unflagged regex. -/
def reTest (re : Rx) (s : String) : Bool :=
  (findFrom false re s.data 0).isSome

/-- The number atom `\d+(?:\.\d+)?`. -/
def rxNum : Rx := Rx.seq (rxPlus rxDigit) (Rx.opt (Rx.seq (rxCh '.') (rxPlus rxDigit)))

/-- The separator group `(?:x|×|X|\*)` under the `i` flag. -/
def rxSep4 : Rx := rxAlts [rxChI 'x', rxCh '×', rxChI 'X', rxCh '*']

/-- The separator group `(?:x|×|X)` under the `i` flag. -/
def rxSep3 : Rx := rxAlts [rxChI 'x', rxCh '×', rxChI 'X']

/-- The unit group `(mm|cm|m|ft|in)` under the `i` flag. -/
def rxUnit : Rx := rxAlts [rxStrI "mm", rxStrI "cm", rxStrI "m", rxStrI "ft", rxStrI "in"]

/-- `/(\d+(?:\.\d+)?)\s*(?:x|×|X|\*)\s*(\d+(?:\.\d+)?)\s*(?:x|×|X|\*)?\s*(\d+(?:\.\d+)?)?\s*(mm|cm|m|ft|in)?/gi`
— dimension pattern 1 (`1200x600mm`, `1200 x 600 mm`, `1200×600`). -/
def rxDim1 : Rx := Rx.cat [Rx.grp 1 rxNum, rxSws, rxSep4, rxSws, Rx.grp 2 rxNum, rxSws,
  Rx.opt rxSep4, rxSws, Rx.opt (Rx.grp 3 rxNum), rxSws, Rx.opt (Rx.grp 4 rxUnit)]

/-- `/(\d+(?:\.\d+)?)\s*(mm|cm|m|ft|in)\s*(?:x|×|X)\s*(\d+(?:\.\d+)?)\s*(mm|cm|m|ft|in)/gi`
— dimension pattern 2 (`1200mm x 600mm`). -/
def rxDim2 : Rx := Rx.cat [Rx.grp 1 rxNum, rxSws, Rx.grp 2 rxUnit, rxSws, rxSep3, rxSws,
  Rx.grp 3 rxNum, rxSws, Rx.grp 4 rxUnit]

/-- `/(\d+(?:\.\d+)?)\s*(?:mm|cm|m|ft|in)\s*(?:wide|long|high|thick|deep)/gi`
— dimension pattern 3 (`1200mm wide`, `4mm thick`). -/
def rxDim3 : Rx := Rx.cat [Rx.grp 1 rxNum, rxSws, rxUnit, rxSws,
  rxAlts [rxStrI "wide", rxStrI "long", rxStrI "high", rxStrI "thick", rxStrI "deep"]]

/-- `/(?:width|length|height|depth|thickness|thk):\s*(\d+(?:\.\d+)?)\s*(mm|cm|m|ft|in)?/gi`
— dimension pattern 4 (`width: 1200mm`). -/
def rxDim4 : Rx := Rx.cat [rxAlts [rxStrI "width", rxStrI "length", rxStrI "height",
  rxStrI "depth", rxStrI "thickness", rxStrI "thk"], rxCh ':', rxSws, Rx.grp 1 rxNum,
  rxSws, Rx.opt (Rx.grp 2 rxUnit)]

/-- `DIMENSION_PATTERNS`, in declaration order (none is multiline). -/
def DIMENSION_PATTERNS : List Rx := [rxDim1, rxDim2, rxDim3, rxDim4]

/-- `/(?:qty|quantity|count|no\.?|number|qty\.):\s*(\d+(?:\.\d+)?)/gi` — quantity
pattern 1. -/
def rxQty1 : Rx := Rx.cat [rxAlts [rxStrI "qty", rxStrI "quantity", rxStrI "count",
  Rx.seq (rxStrI "no") (Rx.opt (rxCh '.')), rxStrI "number", rxStrI "qty."],
  rxCh ':', rxSws, Rx.grp 1 rxNum]

/-- `/(\d+(?:\.\d+)?)\s*(?:pcs|pieces|units|items|panels|sheets|nos?\.?|nr|ea|each)/gi`
— quantity pattern 2. -/
def rxQty2 : Rx := Rx.cat [Rx.grp 1 rxNum, rxSws, rxAlts [rxStrI "pcs", rxStrI "pieces",
  rxStrI "units", rxStrI "items", rxStrI "panels", rxStrI "sheets",
  Rx.cat [rxStrI "no", Rx.opt (rxChI 's'), Rx.opt (rxCh '.')], rxStrI "nr",
  rxStrI "ea", rxStrI "each"]]

/-- `/(?:total|sum|all):\s*(\d+(?:\.\d+)?)/gi` — quantity pattern 3. -/
def rxQty3 : Rx := Rx.cat [rxAlts [rxStrI "total", rxStrI "sum", rxStrI "all"],
  rxCh ':', rxSws, Rx.grp 1 rxNum]

/-- `/\b(\d{1,4})\s*(?:nr|no\.?|nos?\.?|ea|each|num)\b/gi` — quantity pattern 4. -/
def rxQty4 : Rx := Rx.cat [Rx.wb, Rx.grp 1 (rxRep1 rxDigit 4), rxSws,
  rxAlts [rxStrI "nr", Rx.seq (rxStrI "no") (Rx.opt (rxCh '.')),
  Rx.cat [rxStrI "no", Rx.opt (rxChI 's'), Rx.opt (rxCh '.')], rxStrI "ea",
  rxStrI "each", rxStrI "num"], Rx.wb]

/-- `/^\s*(\d{1,3})\s*$/gm` — quantity pattern 5 (bare 1–3-digit table cell;
the only multiline pattern). -/
def rxQty5 : Rx := Rx.cat [Rx.bol, rxSws, Rx.grp 1 (rxRep1 rxDigit 3), rxSws, Rx.eol]

/-- `QUANTITY_PATTERNS` with their multiline flags, in declaration order. -/
def QUANTITY_PATTERNS : List (Rx × Bool) :=
  [(rxQty1, false), (rxQty2, false), (rxQty3, false), (rxQty4, false), (rxQty5, true)]

/-- `/(\d+(?:\.\d+)?)\s*(?:x|×|X|\*)\s*(\d+(?:\.\d+)?)\s*(mm|cm|m|ft|in)?/i` —
the two-number area pattern of `calculateArea`. -/
def rxArea : Rx := Rx.cat [Rx.grp 1 rxNum, rxSws, rxSep4, rxSws, Rx.grp 2 rxNum,
  rxSws, Rx.opt (Rx.grp 3 rxUnit)]

/-- `/^\d{1,3}$/` — the bare-quantity cell test in `parseTableRow` (no flags). -/
def rxDigits13 : Rx := Rx.cat [Rx.bol, rxRep1 rxDigit 3, Rx.eol]

/-- `/\d+\s*[x×X*]\s*\d+/` — the size cell test in `parseTableRow` (no flags). -/
def rxNxN : Rx := Rx.cat [rxPlus rxDigit, rxSws,
  Rx.cls (fun c => c == 'x' || c == '×' || c == 'X' || c == '*'), rxSws, rxPlus rxDigit]

/-- The keyword list of the `acp` category (first entry of
`MATERIAL_KEYWORDS`). -/
def acpKeywords : List String :=
  ["acp", "aluminum composite", "alucobond", "acm", "aluminium composite",
   "composite panel", "acp panel", "metal composite", "acp cladding",
   "composite cladding"]

/-- `MATERIAL_KEYWORDS` in declaration order; iteration order is semantically
load-bearing (specific facade materials before generic terms). -/
def MATERIAL_KEYWORDS : List (String × List String) :=
  [("acp", acpKeywords),
   ("aluminum", ["aluminum panel", "aluminum cladding", "aluminum sheet",
     "aluminium panel", "aluminium cladding", "aluminum", "aluminium",
     "aluminum mullion", "aluminum framing", "al frame"]),
   ("steel", ["steel", "stainless steel", "carbon steel", "ss ", " ss"]),
   ("composite", ["composite"]),
   ("glass", ["double glaz", "triple glaz", "glazing unit", "glazed unit",
     "glass", "glazing", "glazed", "insulated glass", "window", "pane",
     "vision panel"]),
   ("concrete", ["concrete", "reinforced concrete", " rc "]),
   ("stone", ["stone", "marble", "granite", "limestone", "natural stone"]),
   ("brick", ["brick", "masonry"]),
   ("other", ["facade", "curtain wall", "cladding", "panel"])]

/-- Whether some keyword of a category occurs in the lowercased text (the
inner loop of `extractMaterialType`). -/
def categoryMatches (text : String) (kws : List String) : Bool :=
  kws.any (fun k => jsIncludes (jsToLower text) k)

/-- `extractMaterialType` (material-parser.ts lines 51–63): first category in
declaration order with a case-insensitive substring keyword match. -/
def extractMaterialType (text : String) : Option String :=
  (MATERIAL_KEYWORDS.find? (fun kv => categoryMatches text kv.2)).map Prod.fst

/-- First-occurrence-preserving deduplication, modelling
`[...new Set(list)]`. -/
def firstDedup (l : List String) : List String :=
  l.foldl (fun acc s => if s ∈ acc then acc else acc ++ [s]) []

/-- `extractDimensions` (lines 68–81): all full matches of every dimension
pattern, trimmed, deduplicated preserving first-seen order. -/
def extractDimensions (text : String) : List String :=
  firstDedup (DIMENSION_PATTERNS.foldl (fun acc p =>
    acc ++ (jsMatchAll false p text).map (fun r => jsTrim r.1)) [])

/-- `extractQuantities` (lines 86–102): parse capture group 1 of every match
of every quantity pattern; falsy captures and `NaN` parses are skipped. -/
def extractQuantities (text : String) : List ℚ :=
  QUANTITY_PATTERNS.foldl (fun acc p =>
    acc ++ (jsMatchAll p.2 p.1 text).foldl (fun a r =>
      match getCap r.2 1 with
      | some s =>
        if s = "" then a
        else
          match parseDec s with
          | some q => a ++ [q]
          | none => a
      | none => a) []) []

/-- `calculateArea` (lines 108–138): first match of the two-number pattern;
operands converted to metres (`mm` default when no unit is captured), area in
square metres. -/
def calculateArea (dimensions : String) : Option ℚ :=
  match jsMatchFirst false rxArea dimensions with
  | none => none
  | some r =>
    let len : ℚ := ((getCap r.2 1).bind parseDec).getD 0
    let wid : ℚ := ((getCap r.2 2).bind parseDec).getD 0
    let unit := jsToLower (match getCap r.2 3 with
      | some s => if s = "" then "mm" else s
      | none => "mm")
    let lenM : ℚ :=
      if unit = "mm" then qDiv len 1000
      else if unit = "cm" then qDiv len 100
      else if unit = "ft" then qMul len (Rat.divInt 3048 10000)
      else if unit = "in" then qMul len (Rat.divInt 254 10000)
      else len
    let widM : ℚ :=
      if unit = "mm" then qDiv wid 1000
      else if unit = "cm" then qDiv wid 100
      else if unit = "ft" then qMul wid (Rat.divInt 3048 10000)
      else if unit = "in" then qMul wid (Rat.divInt 254 10000)
      else wid
    some (qMul lenM widM)

/-- `Confidence` (types/index.ts): provenance-quality of a quantity value. -/
inductive Confidence where
  | confirmed
  | estimated
  | missing
deriving DecidableEq

/-- `ExtractedMaterial` (types/index.ts): the central record type; every
field is optional in the source interface. -/
structure ExtractedMaterial where
  materialType : Option String
  dimensions : Option String
  quantity : Option ℚ
  annotations : Option String
  rawData : Option (List (String × JVal))
  confidence : Option Confidence

/-- `TableRow` (types/extraction): a structured CAD table row. -/
structure TableRow where
  cells : List String
  columnRoles : Option (List String)
  rowIndex : Int
  tableName : Option String

/-- A `string | undefined` value embedded into the dynamic world. -/
def jsOptStr : Option String → JVal
  | some s => .str s
  | none => (.undef)

/-- One iteration of the cell loop of `parseTableRow` (lines 148–159): role
lookup with `?? ''`, trimmed value, role-directed assignment, and — when the
role array is empty — heuristic per-cell role inference.  Each branch
overwrites the previously assigned cell for its role. -/
def applyCell (roles : List String) (col : Nat) (st : String × String × String)
    (cell : String) : String × String × String :=
  let role := (roles.get? col).getD ""
  let val := jsTrim cell
  if role = "desc" then (val, st.2.1, st.2.2)
  else if role = "qty" then (st.1, val, st.2.2)
  else if role = "size" then (st.1, st.2.1, val)
  else if roles.length = 0 then
    if tru (extractMaterialType val) then (val, st.2.1, st.2.2)
    else if reTest rxDigits13 val then (st.1, val, st.2.2)
    else if reTest rxNxN val then (st.1, st.2.1, val)
    else st
  else st

/-- The cell loop of `parseTableRow`, tracking the column index.  The state
is `(descCell, qtyCell, sizeCell)`. -/
def scanRowAux (roles : List String) : List String → Nat → (String × String × String) →
    String × String × String
  | [], _, st => st
  | c :: rest, col, st => scanRowAux roles rest (col + 1) (applyCell roles col st c)

/-- `parseTableRow` (material-parser.ts lines 143–193). -/
def parseTableRow (row : TableRow) : Option ExtractedMaterial :=
  let roles := row.columnRoles.getD []
  let cellsv := scanRowAux roles row.cells 0 ("", "", "")
  let descCell := cellsv.1
  let qtyCell := cellsv.2.1
  let sizeCell := cellsv.2.2
  let materialType := extractMaterialType (if descCell = "" then joinSep " " row.cells else descCell)
  let dimensions := if sizeCell = "" then [] else extractDimensions sizeCell
  let dimStr := if 0 < dimensions.length then some (joinSep ", " dimensions) else none
  let qtyNum : Option Int := if qtyCell = "" then none else jsParseInt qtyCell
  let hasQty := match qtyNum with | some n => decide (0 ≤ n) | none => false
  let hasDims := tru dimStr
  if !(tru materialType) && descCell == "" && !hasQty && !hasDims then none
  else
    let qc : Option ℚ × Confidence :=
      if hasQty then (qtyNum.map (fun n => (n : ℚ)), .confirmed)
      else if tru dimStr then
        match calculateArea (dimStr.getD "") with
        | some a => (some a, .estimated)
        | none => (none, .missing)
      else (none, .missing)
    some
      { materialType := materialType
        dimensions := dimStr
        quantity := qc.1
        annotations := some (if descCell = "" then joinSep " | " row.cells else descCell)
        confidence := some qc.2
        rawData := some [("source", .str "dwg"), ("method", .str "table"),
          ("sourceTrace", .obj [("entityType", .str "ACAD_TABLE"),
            ("tableName", jsOptStr row.tableName),
            ("rowIndex", .num (row.rowIndex : ℚ))])] }

/-- The segmenter of `parseMaterialData` (lines 201–210): paragraphs (split on
blank-line boundaries, blank paragraphs dropped, whole text as fallback
paragraph), then trimmed non-empty lines of at least two characters; if no
section survives but the trimmed text is non-empty, the trimmed text itself
is the single section. -/
def textSections (text : String) : List String :=
  let paragraphs := (splitParas text).filter (fun s => 0 < (jsTrim s).length)
  let base := if 0 < paragraphs.length then paragraphs else [text]
  let secs := base.foldl (fun acc para =>
    acc ++ ((((splitLines para).map jsTrim).filter (fun l => 0 < l.length)).filter
      (fun l => 2 ≤ l.length))) []
  if secs.length = 0 ∧ 0 < (jsTrim text).length then [jsTrim text] else secs

/-- The `rawData` bag of a free-text record (lines 233–240): a copy of the
metadata, with a `sourceTrace` attached when the metadata carries a truthy
`source` and no truthy `sourceTrace` of its own. -/
def mdRawData (additionalData : List (String × JVal)) : List (String × JVal) :=
  if (getJ additionalData "source").truthy ∧ ¬ (getJ additionalData "sourceTrace").truthy then
    setKey additionalData "sourceTrace" (.obj
      ([("source", getJ additionalData "source"),
        ("method", if (getJ additionalData "method").nonNullish
          then getJ additionalData "method" else getJ additionalData "source")] ++
       (if (getJ additionalData "pages").nonNullish
        then [("pageNumber", getJ additionalData "pages")] else [])))
  else additionalData

/-- The secondary area pass of the section loop (lines 250–257): when a
record has truthy dimensions but a falsy quantity, re-attempt the area
computation, upgrading quantity and confidence and stamping `area` /
`areaUnit` into `rawData`. -/
def secondaryPass (material : ExtractedMaterial) : ExtractedMaterial :=
  if tru material.dimensions ∧ ¬ truQ material.quantity then
    match calculateArea (material.dimensions.getD "") with
    | some a =>
      if a = 0 then material
      else
        { material with
          quantity := some a
          confidence := some .estimated
          rawData := some (setKey (setKey (material.rawData.getD []) "area" (.num a))
            "areaUnit" (.str "m²")) }
    | none => material
  else material

/-- The body of the section loop of `parseMaterialData` (lines 212–260):
builds at most one record from one text section. -/
def sectionRecord (sec : String) (additionalData : List (String × JVal)) :
    Option ExtractedMaterial :=
  let materialType := extractMaterialType sec
  let dimensions := extractDimensions sec
  let quantities := extractQuantities sec
  let qc : Option ℚ × Confidence :=
    if 0 < quantities.length then (some (quantities.foldl qAdd 0), .confirmed)
    else if 0 < dimensions.length then
      match calculateArea (dimensions.headD "") with
      | some a => if a = 0 then (none, .missing) else (some a, .estimated)
      | none => (none, .missing)
    else (none, .missing)
  if tru materialType ∨ 0 < dimensions.length ∨ 0 < quantities.length then
    let rawData := mdRawData additionalData
    let material : ExtractedMaterial :=
      { materialType := jsOrUndef materialType
        dimensions := if 0 < dimensions.length then some (joinSep ", " dimensions) else none
        quantity := qc.1
        annotations := some (jsTrim sec)
        confidence := some qc.2
        rawData := some rawData }
    some (secondaryPass material)
  else none

/-- `parseMaterialData` (lines 198–272): one record attempt per section, plus
the last-resort fallback record for non-empty but fully unparsable input.
The optional `additionalData` parameter is modelled as a (possibly empty)
association list, observationally equal to the source's `additionalData || {}`
treatment. -/
def parseMaterialData (text : String) (additionalData : List (String × JVal)) :
    List ExtractedMaterial :=
  let materials := (textSections text).foldl
    (fun ms sec => ms ++ (sectionRecord sec additionalData).toList) []
  if materials.length = 0 ∧ 0 < (jsTrim text).length then
    [{ materialType := none, dimensions := none, quantity := none,
       annotations := some (jsTrim text), rawData := some additionalData,
       confidence := none }]
  else materials

/-- `CONFIDENCE_ORDER[m.confidence ?? ''] ?? 0` from the deduplicator module:
confirmed 3, estimated 2, missing 1, absent 0. -/
def CONFIDENCE_ORDER : Option Confidence → Nat
  | some .confirmed => 3
  | some .estimated => 2
  | some .missing => 1
  | none => 0

/-- `normalizeKey` from the deduplicator module: lowercased trimmed type,
trimmed dimensions, quantity as string, joined with pipes. -/
def normalizeKey (m : ExtractedMaterial) : String :=
  let type := jsTrim (jsToLower (m.materialType.getD ""))
  let dims := jsTrim (m.dimensions.getD "")
  let qty := match m.quantity with | some q => qToString q | none => ""
  type ++ "|" ++ dims ++ "|" ++ qty

/-- Insert one material into the keyed-group list (the `Map` in
`deduplicateMaterials`; JavaScript `Map` preserves key insertion order, and
members are appended to their group in encounter order). -/
def insertGrouped : List (String × List ExtractedMaterial) → String → ExtractedMaterial →
    List (String × List ExtractedMaterial)
  | [], key, m => [(key, [m])]
  | (k, g) :: rest, key, m =>
    if k = key then (k, g ++ [m]) :: rest else (k, g) :: insertGrouped rest key m

/-- The grouping pass of `deduplicateMaterials` (lines 21–28 of the module). -/
def groupByKey (ms : List ExtractedMaterial) : List (String × List ExtractedMaterial) :=
  ms.foldl (fun acc m => insertGrouped acc (normalizeKey m) m) []

/-- `g.rawData?.sourceTrace` — the optional source trace of a material. -/
def getTrace (m : ExtractedMaterial) : Option JVal :=
  match m.rawData with
  | some r => lookupKey r "sourceTrace"
  | none => none

/-- The merge of one key group (lines 32–49 of the module): representative of
highest confidence (first-encountered on ties), distinct non-empty
annotations joined with `"; "`, and — when any member carries a source trace
— the first trace kept together with the total trace count. -/
def mergeGroup : List ExtractedMaterial → Option ExtractedMaterial
  | [] => none
  | g0 :: grest =>
    let best := grest.foldl
      (fun a b => if CONFIDENCE_ORDER b.confidence ≤ CONFIDENCE_ORDER a.confidence then a else b) g0
    let anns := joinSep "; " (firstDedup
      (((g0 :: grest).filterMap (fun g => g.annotations)).filter (fun s => s != "")))
    let merged := { best with annotations := if anns = "" then best.annotations else some anns }
    let traces := ((g0 :: grest).map getTrace).filterMap id |>.filter JVal.truthy
    match traces with
    | [] => some merged
    | t :: ts =>
      some { merged with rawData := some (setKey (setKey (merged.rawData.getD [])
        "sourceTrace" t) "sourceTraceCount" (.num ((ts.length + 1 : ℕ) : ℚ))) }

/-- `deduplicateMaterials` (lines 20–52 of the module): group by normalized
key, merge each group, output in group-first-encountered order. -/
def deduplicateMaterials (materials : List ExtractedMaterial) : List ExtractedMaterial :=
  (groupByKey materials).foldl (fun acc kg => acc ++ (mergeGroup kg.2).toList) []

/-- The merge of a singleton group, as a function (what a second
`deduplicateMaterials` pass does to each already-merged record). -/
def mergeSingle (m : ExtractedMaterial) : ExtractedMaterial :=
  (mergeGroup [m]).getD m

/-- `rawData.sourceTraceCount` of a material as a number, when present. -/
def traceCount (m : ExtractedMaterial) : Option ℚ :=
  match m.rawData with
  | some r =>
    match lookupKey r "sourceTraceCount" with
    | some (.num q) => some q
    | _ => none
  | none => none

/-- C3 counterexample: `calculateArea "1200mm x 600mm"` does not equal
`calculateArea "1200x600"` — the area regex requires the `x` separator
directly after the first number (modulo whitespace), so a unit on the first
operand prevents any match and the result is `none`, not 0.72. -/
theorem calculateArea_unit_cex :
    calculateArea "1200mm x 600mm" ≠ calculateArea "1200x600" := by decide

/-- C3 (amended): a dimension string with no unit is interpreted as
millimetres: `calculateArea "1200x600"` equals `calculateArea "1200x600mm"`,
both 0.72 square metres; but `calculateArea "1200mm x 600mm"`, with an
explicit unit on each operand, matches no pattern and yields `none`. -/
theorem calculateArea_unit_default :
    calculateArea "1200x600" = some ((18 : ℚ) / 25) ∧
    calculateArea "1200x600mm" = some ((18 : ℚ) / 25) ∧
    calculateArea "1200mm x 600mm" = none := by
  have e : ((18 : ℚ) / 25) = Rat.divInt 18 25 := by
    rw [Rat.divInt_eq_div]; norm_num
  exact ⟨by rw [e]; decide, by rw [e]; decide, by decide⟩

/-- C10: `extractQuantities` does not deduplicate captures across the
quantity patterns: `"5 nos"` is matched both by the suffixed-count pattern
and by the short-abbreviation pattern, so the number 5 is returned twice, and
`parseMaterialData` sums the duplicates into a confirmed quantity of 10 —
double the count stated in the text. -/
theorem extractQuantities_duplicate_sum :
    extractQuantities "5 nos" = [5, 5] ∧
    parseMaterialData "5 nos" [] =
      [{ materialType := none, dimensions := none, quantity := some 10,
         annotations := some "5 nos", rawData := some [], confidence := some .confirmed }] :=
  ⟨by decide, rfl⟩

/-- C7 counterexample: for the two-element list of records that are exactly
`{materialType: "glass", dimensions: "1200x600", quantity: 5}` except for
their annotations, `deduplicateMaterials` does merge the annotations into
`"Window A; Window B"`, but the merged record carries no `rawData` at all
(the inputs have no `sourceTrace`), so `rawData.sourceTraceCount` is not 2 —
it is absent. -/
theorem deduplicateMaterials_traceless_cex :
    deduplicateMaterials
      [⟨some "glass", some "1200x600", some 5, some "Window A", none, none⟩,
       ⟨some "glass", some "1200x600", some 5, some "Window B", none, none⟩] =
      [⟨some "glass", some "1200x600", some 5, some "Window A; Window B", none, none⟩] ∧
    (deduplicateMaterials
      [⟨some "glass", some "1200x600", some 5, some "Window A", none, none⟩,
       ⟨some "glass", some "1200x600", some 5, some "Window B", none, none⟩]).map traceCount
      ≠ [some 2] :=
  ⟨rfl, by decide⟩

/-- C7 (amended): the merge result claimed by the specification requires the
two records to carry a `rawData.sourceTrace` each: then the single merged
record has annotations `"Window A; Window B"`, keeps the first record's
trace, and is stamped with `sourceTraceCount = 2`.  Without traces the merged
record keeps the (absent) `rawData` of the representative and carries no
`sourceTraceCount`. -/
theorem deduplicateMaterials_merge_traced :
    deduplicateMaterials
      [⟨some "glass", some "1200x600", some 5, some "Window A",
        some [("sourceTrace", .obj [("source", .str "pdf")])], none⟩,
       ⟨some "glass", some "1200x600", some 5, some "Window B",
        some [("sourceTrace", .obj [("source", .str "dwg")])], none⟩] =
      [⟨some "glass", some "1200x600", some 5, some "Window A; Window B",
        some [("sourceTrace", .obj [("source", .str "pdf")]),
              ("sourceTraceCount", .num 2)], none⟩] ∧
    deduplicateMaterials
      [⟨some "glass", some "1200x600", some 5, some "Window A", none, none⟩,
       ⟨some "glass", some "1200x600", some 5, some "Window B", none, none⟩] =
      [⟨some "glass", some "1200x600", some 5, some "Window A; Window B", none, none⟩] :=
  ⟨rfl, rfl⟩

/-- C8: categories are tried in the fixed declaration order of
`MATERIAL_KEYWORDS` with `acp` first, so any text containing an `acp`
keyword — in particular `"aluminum composite panel door"`, which contains
`"aluminum composite"` — is classified as `acp`, never as `aluminum` or
`other`. -/
theorem extractMaterialType_acp_priority :
    extractMaterialType "aluminum composite panel door" = some "acp" ∧
    ∀ t : String, categoryMatches t acpKeywords = true → extractMaterialType t = some "acp" := by
  refine ⟨by decide, fun t h => ?_⟩
  simp [extractMaterialType, MATERIAL_KEYWORDS, List.find?, h]

/-- Witness for `extractMaterialType_acp_priority` at the concrete input
`"alucobond sheet"`. -/
theorem extractMaterialType_acp_priority_witness :
    categoryMatches "alucobond sheet" acpKeywords = true ∧
    extractMaterialType "alucobond sheet" = some "acp" :=
  ⟨by decide, extractMaterialType_acp_priority.2 "alucobond sheet" (by decide)⟩

/-- C5 counterexample: with no column roles, a later cell matching the same
role replaces the earlier one — for cells `["glass", "steel"]` both match the
description role, and the record is built from `"steel"` (the later cell),
not from `"glass"` as first-match-wins would give. -/
theorem parseTableRow_first_wins_cex :
    parseTableRow ⟨["glass", "steel"], none, 0, none⟩ =
      some ⟨some "steel", none, none, some "steel",
        some [("source", .str "dwg"), ("method", .str "table"),
          ("sourceTrace", .obj [("entityType", .str "ACAD_TABLE"), ("tableName", .undef),
            ("rowIndex", .num 0)])], some .missing⟩ ∧
    (parseTableRow ⟨["glass", "steel"], none, 0, none⟩).map
      (fun m => m.materialType) ≠ some (some "glass") :=
  ⟨rfl, by decide⟩

/-- C6 counterexample: for a row whose `cells` and `columnRoles` have
different lengths (two cells, one role), `parseTableRow` raises no error and
silently returns a record (the missing role is treated as empty). -/
theorem parseTableRow_length_mismatch_cex :
    parseTableRow ⟨["glass", "5"], some ["desc"], 0, none⟩ =
      some ⟨some "glass", none, none, some "glass",
        some [("source", .str "dwg"), ("method", .str "table"),
          ("sourceTrace", .obj [("entityType", .str "ACAD_TABLE"), ("tableName", .undef),
            ("rowIndex", .num 0)])], some .missing⟩ :=
  rfl

/-- C4 counterexample: a record produced by `parseMaterialData` with an empty
metadata mapping carries an empty `rawData` and no `sourceTrace` at all — the
trace is only attached when the metadata has a truthy `source`. -/
theorem parseMaterialData_missing_trace_cex :
    parseMaterialData "glass" [] =
      [⟨some "glass", none, none, some "glass", some [], some .missing⟩] ∧
    (parseMaterialData "glass" []).map getTrace = [none] :=
  ⟨rfl, rfl⟩

/-- A cell that the role-inference heuristic assigns to the description role:
it contains a recognizable material keyword. -/
def descCellMatch (c : String) : Bool := tru (extractMaterialType (jsTrim c))

/-- A cell assigned to the quantity role: no material keyword, and a bare 1–3
digit integer. -/
def qtyCellMatch (c : String) : Bool :=
  !descCellMatch c && reTest rxDigits13 (jsTrim c)

/-- A cell assigned to the size role: no material keyword, not a bare 1–3
digit integer, and matching the number-x-number pattern. -/
def sizeCellMatch (c : String) : Bool :=
  !descCellMatch c && !reTest rxDigits13 (jsTrim c) && reTest rxNxN (jsTrim c)

theorem applyCell_nil_fst (col : Nat) (st : String × String × String) (c : String) :
    (applyCell [] col st c).1 = if descCellMatch c then jsTrim c else st.1 := by
  simp only [applyCell, descCellMatch, List.get?_nil, Option.getD_none, List.length_nil]
  split_ifs <;> simp_all

theorem applyCell_nil_snd (col : Nat) (st : String × String × String) (c : String) :
    (applyCell [] col st c).2.1 = if qtyCellMatch c then jsTrim c else st.2.1 := by
  simp only [applyCell, qtyCellMatch, descCellMatch, List.get?_nil, Option.getD_none,
    List.length_nil]
  split_ifs <;> simp_all

theorem applyCell_nil_thd (col : Nat) (st : String × String × String) (c : String) :
    (applyCell [] col st c).2.2 = if sizeCellMatch c then jsTrim c else st.2.2 := by
  simp only [applyCell, sizeCellMatch, descCellMatch, List.get?_nil, Option.getD_none,
    List.length_nil]
  split_ifs <;> simp_all

theorem scanRowAux_append (roles : List String) (l1 l2 : List String) (col : Nat)
    (st : String × String × String) :
    scanRowAux roles (l1 ++ l2) col st =
      scanRowAux roles l2 (col + l1.length) (scanRowAux roles l1 col st) := by
  induction l1 generalizing col st with
  | nil => simp [scanRowAux]
  | cons c rest ih =>
    simp only [List.cons_append, scanRowAux, List.length_cons, List.append_eq]
    rw [ih]
    congr 1
    omega

theorem scanRowAux_nil_fst_const (cs : List String) (col : Nat)
    (st : String × String × String) (h : ∀ c ∈ cs, descCellMatch c = false) :
    (scanRowAux [] cs col st).1 = st.1 := by
  induction cs generalizing col st with
  | nil => rfl
  | cons c rest ih =>
    simp only [scanRowAux]
    rw [ih _ _ (fun x hx => h x (List.mem_cons_of_mem c hx)), applyCell_nil_fst,
      h c (List.mem_cons_self c rest)]
    simp

theorem scanRowAux_nil_snd_const (cs : List String) (col : Nat)
    (st : String × String × String) (h : ∀ c ∈ cs, qtyCellMatch c = false) :
    (scanRowAux [] cs col st).2.1 = st.2.1 := by
  induction cs generalizing col st with
  | nil => rfl
  | cons c rest ih =>
    simp only [scanRowAux]
    rw [ih _ _ (fun x hx => h x (List.mem_cons_of_mem c hx)), applyCell_nil_snd,
      h c (List.mem_cons_self c rest)]
    simp

theorem scanRowAux_nil_thd_const (cs : List String) (col : Nat)
    (st : String × String × String) (h : ∀ c ∈ cs, sizeCellMatch c = false) :
    (scanRowAux [] cs col st).2.2 = st.2.2 := by
  induction cs generalizing col st with
  | nil => rfl
  | cons c rest ih =>
    simp only [scanRowAux]
    rw [ih _ _ (fun x hx => h x (List.mem_cons_of_mem c hx)), applyCell_nil_thd,
      h c (List.mem_cons_self c rest)]
    simp

/-- C5 (amended): in no-roles inference mode each cell is assigned to at most
one role by the keyword / bare-integer / number-x-number cascade, but for
each role the LAST matching cell in cell order wins: the scan state of
`parseTableRow` ends with the trimmed value of the last cell matching the
role, whatever cells preceded it. -/
theorem scanRow_inference_last_wins :
    (∀ (p : List String) (v : String) (s : List String) (col : Nat)
      (st : String × String × String), descCellMatch v = true →
      (∀ c ∈ s, descCellMatch c = false) →
      (scanRowAux [] (p ++ v :: s) col st).1 = jsTrim v) ∧
    (∀ (p : List String) (v : String) (s : List String) (col : Nat)
      (st : String × String × String), qtyCellMatch v = true →
      (∀ c ∈ s, qtyCellMatch c = false) →
      (scanRowAux [] (p ++ v :: s) col st).2.1 = jsTrim v) ∧
    (∀ (p : List String) (v : String) (s : List String) (col : Nat)
      (st : String × String × String), sizeCellMatch v = true →
      (∀ c ∈ s, sizeCellMatch c = false) →
      (scanRowAux [] (p ++ v :: s) col st).2.2 = jsTrim v) := by
  refine ⟨fun p v s col st hv hs => ?_, fun p v s col st hv hs => ?_,
    fun p v s col st hv hs => ?_⟩ <;>
    rw [scanRowAux_append] <;>
    simp only [scanRowAux]
  · rw [scanRowAux_nil_fst_const _ _ _ hs, applyCell_nil_fst, hv]; simp
  · rw [scanRowAux_nil_snd_const _ _ _ hs, applyCell_nil_snd, hv]; simp
  · rw [scanRowAux_nil_thd_const _ _ _ hs, applyCell_nil_thd, hv]; simp

/-- Witness for `scanRow_inference_last_wins`: concrete two-cells-per-role
rows in which the later matching cell provides the final value. -/
theorem scanRow_inference_last_wins_witness :
    descCellMatch "glass" = true ∧
    (scanRowAux [] (["pqr"] ++ "glass" :: ["qq"]) 0 ("", "", "")).1 = jsTrim "glass" ∧
    (scanRowAux [] (["pqr"] ++ "7" :: ["glass"]) 0 ("", "", "")).2.1 = jsTrim "7" ∧
    (scanRowAux [] (["pqr"] ++ "3x4" :: ["8"]) 0 ("", "", "")).2.2 = jsTrim "3x4" :=
  ⟨by decide,
   scanRow_inference_last_wins.1 ["pqr"] "glass" ["qq"] 0 ("", "", "") (by decide) (by decide),
   scanRow_inference_last_wins.2.1 ["pqr"] "7" ["glass"] 0 ("", "", "") (by decide) (by decide),
   scanRow_inference_last_wins.2.2 ["pqr"] "3x4" ["8"] 0 ("", "", "") (by decide) (by decide)⟩

/-- A role array adjusted to the cell count: truncated to `n` entries and
padded with `""` (the value `roles[col] ?? ''` produces for a missing
index). -/
def normRoles (roles : List String) (n : Nat) : List String :=
  roles.take n ++ List.replicate (n - roles.length) ""

theorem normRoles_length (roles : List String) (n : Nat) :
    (normRoles roles n).length = n := by
  simp only [normRoles, List.length_append, List.length_take, List.length_replicate]
  omega

theorem normRoles_get (roles : List String) (n j : Nat) (hj : j < n) :
    ((normRoles roles n).get? j).getD "" = (roles.get? j).getD "" := by
  rw [List.get?_eq_getElem?, List.get?_eq_getElem?]
  unfold normRoles
  by_cases h : j < roles.length
  · rw [List.getElem?_append_left (by simp only [List.length_take]; omega),
      List.getElem?_take_of_lt hj]
  · rw [List.getElem?_append_right (by simp only [List.length_take]; omega),
      List.getElem?_replicate]
    rw [List.getElem?_eq_none (show roles.length ≤ j by omega)]
    have hlt : j - n ⊓ roles.length < n - roles.length := by omega
    simp [hlt]

theorem applyCell_congr (roles roles2 : List String) (col : Nat)
    (st : String × String × String) (c : String)
    (hrole : (roles.get? col).getD "" = (roles2.get? col).getD "")
    (hlen : roles.length = 0 ↔ roles2.length = 0) :
    applyCell roles col st c = applyCell roles2 col st c := by
  unfold applyCell
  rw [hrole]
  simp only [hlen]

theorem scanRowAux_congr (roles roles2 : List String) (cs : List String) (col : Nat)
    (st : String × String × String)
    (hlen : roles.length = 0 ↔ roles2.length = 0)
    (hrole : ∀ j, col ≤ j → j < col + cs.length → (roles.get? j).getD "" = (roles2.get? j).getD "") :
    scanRowAux roles cs col st = scanRowAux roles2 cs col st := by
  induction cs generalizing col st with
  | nil => rfl
  | cons c rest ih =>
    simp only [scanRowAux]
    rw [applyCell_congr roles roles2 col st c
      (hrole col (Nat.le_refl col) (by simp only [List.length_cons]; omega)) hlen]
    exact ih (col + 1) _ (fun j h1 h2 => hrole j (by omega)
      (by simp only [List.length_cons] at h2 ⊢; omega))

/-- C6 (amended): `parseTableRow` performs no length validation and raises no
error on a row whose `cells` and `columnRoles` lengths disagree: missing
roles are read as `''` and surplus roles are ignored, so the result is the
same as with the role array truncated to the cell count and padded with
`''`; a record (or `null`) is returned silently. -/
theorem parseTableRow_length_tolerant :
    ∀ (cells roles : List String) (i : Int) (t : Option String), roles ≠ [] →
      parseTableRow ⟨cells, some roles, i, t⟩ =
        parseTableRow ⟨cells, some (normRoles roles cells.length), i, t⟩ := by
  intro cells roles i t hne
  rcases cells with _ | ⟨c0, crest⟩
  · rfl
  · have hlen : roles.length = 0 ↔ (normRoles roles (c0 :: crest).length).length = 0 := by
      rw [normRoles_length]
      constructor
      · intro h
        exact absurd (List.length_eq_zero.mp h) hne
      · intro h
        simp at h
    have hscan : scanRowAux roles (c0 :: crest) 0 ("", "", "") =
        scanRowAux (normRoles roles (c0 :: crest).length) (c0 :: crest) 0 ("", "", "") :=
      scanRowAux_congr _ _ _ 0 _ hlen
        (fun j _ h2 => (normRoles_get roles _ j (by simpa using h2)).symm)
    unfold parseTableRow
    simp only [Option.getD_some, hscan]

/-- Witness for `parseTableRow_length_tolerant` at the concrete mismatched
row with two cells and one role. -/
theorem parseTableRow_length_tolerant_witness :
    parseTableRow ⟨["glass", "5"], some ["desc"], 0, none⟩ =
      parseTableRow ⟨["glass", "5"], some (normRoles ["desc"] 2), 0, none⟩ :=
  parseTableRow_length_tolerant ["glass", "5"] ["desc"] 0 none (by decide)


theorem lookupKey_setKey_self (l : List (String × JVal)) (k : String) (v : JVal) :
    lookupKey (setKey l k v) k = some v := by
  induction l with
  | nil => simp [setKey, lookupKey]
  | cons p rest ih =>
    by_cases h : p.1 = k
    · simp [setKey, h, lookupKey]
    · simp [setKey, h, lookupKey, ih]

theorem lookupKey_setKey_ne (l : List (String × JVal)) (k k2 : String) (v : JVal)
    (h : k ≠ k2) : lookupKey (setKey l k v) k2 = lookupKey l k2 := by
  induction l with
  | nil => simp [setKey, lookupKey, h]
  | cons p rest ih =>
    obtain ⟨pk, pv⟩ := p
    by_cases h2 : pk = k
    · subst h2
      simp [setKey, lookupKey, h]
    · by_cases h3 : pk = k2
      · subst h3
        simp [setKey, h2, lookupKey, ih]
      · simp [setKey, h2, lookupKey, h3, ih]

theorem mdRawData_trace (md : List (String × JVal))
    (hsrc : (getJ md "source").truthy = true) :
    ∃ v, lookupKey (mdRawData md) "sourceTrace" = some v ∧ v.truthy = true := by
  unfold mdRawData
  split
  · exact ⟨_, lookupKey_setKey_self md "sourceTrace" _, rfl⟩
  · rename_i hc
    have htr : (getJ md "sourceTrace").truthy = true := by
      by_contra hn
      exact hc ⟨hsrc, hn⟩
    cases hlk : lookupKey md "sourceTrace" with
    | none =>
      rw [getJ, hlk] at htr
      exact absurd htr (by simp [JVal.truthy])
    | some v =>
      refine ⟨v, rfl, ?_⟩
      rw [getJ, hlk] at htr
      exact htr

theorem foldl_append_toList_mem {α β : Type} (f : α → Option β) (l : List α)
    (acc : List β) (m : β)
    (hm : m ∈ l.foldl (fun ms x => ms ++ (f x).toList) acc) :
    m ∈ acc ∨ ∃ x ∈ l, f x = some m := by
  induction l generalizing acc with
  | nil => exact Or.inl hm
  | cons a rest ih =>
    rcases ih _ hm with h | ⟨x, hx, he⟩
    · rcases List.mem_append.mp h with h | h
      · exact Or.inl h
      · refine Or.inr ⟨a, List.mem_cons_self a rest, ?_⟩
        cases hf : f a
        · simp [hf] at h
        · simp [hf] at h
          simp [hf, h]
    · exact Or.inr ⟨x, List.mem_cons_of_mem _ hx, he⟩

theorem secondaryPass_getTrace (mat : ExtractedMaterial) :
    getTrace (secondaryPass mat) = getTrace mat := by
  unfold secondaryPass
  split
  · split
    · split
      · rfl
      · show lookupKey (setKey (setKey (mat.rawData.getD []) "area" _) "areaUnit" _)
          "sourceTrace" = getTrace mat
        rw [lookupKey_setKey_ne _ _ _ _ (by decide),
          lookupKey_setKey_ne _ _ _ _ (by decide)]
        cases hraw : mat.rawData with
        | none => simp [getTrace, hraw, lookupKey]
        | some val => simp [getTrace, hraw]
    · rfl
  · rfl

theorem sectionRecord_trace (sec : String) (md : List (String × JVal))
    (m : ExtractedMaterial) (h : sectionRecord sec md = some m)
    (hsrc : (getJ md "source").truthy = true) :
    ∃ v, getTrace m = some v ∧ v.truthy = true := by
  obtain ⟨v, hv, hvt⟩ := mdRawData_trace md hsrc
  simp only [sectionRecord] at h
  split at h
  · rw [← Option.some.inj h, secondaryPass_getTrace]
    exact ⟨v, hv, hvt⟩
  · exact absurd h (by simp)

theorem sectionRecord_trace_eq (sec : String) (md : List (String × JVal))
    (m : ExtractedMaterial) (h : sectionRecord sec md = some m) :
    getTrace m = lookupKey (mdRawData md) "sourceTrace" := by
  simp only [sectionRecord] at h
  split at h
  · rw [← Option.some.inj h, secondaryPass_getTrace]
    rfl
  · exact absurd h (by simp)

/-- C4 (amended): `parseTableRow` always populates `rawData` with the `dwg`
source, the `table` method and an `ACAD_TABLE` source trace carrying the
table name and row index.  `parseMaterialData` copies the metadata mapping
into every record's `rawData`; a section record's `rawData.sourceTrace` is
the constructed trace `{source, method: method ?? source, pageNumber when
pages is non-nullish}` exactly when the metadata has a truthy `source` and no
truthy `sourceTrace` of its own, and otherwise is exactly the metadata's own
`sourceTrace` entry — in particular absent for an empty metadata mapping; the
fallback record always keeps the metadata's own entry. -/
theorem sourceTrace_contract :
    (∀ (row : TableRow) (m : ExtractedMaterial), parseTableRow row = some m →
      m.rawData = some [("source", .str "dwg"), ("method", .str "table"),
        ("sourceTrace", .obj [("entityType", .str "ACAD_TABLE"),
          ("tableName", jsOptStr row.tableName), ("rowIndex", .num (row.rowIndex : ℚ))])]) ∧
    (∀ md : List (String × JVal),
      lookupKey (mdRawData md) "sourceTrace" =
        if (getJ md "source").truthy ∧ ¬ (getJ md "sourceTrace").truthy then
          some (.obj
            ([("source", getJ md "source"),
              ("method", if (getJ md "method").nonNullish
                then getJ md "method" else getJ md "source")] ++
             (if (getJ md "pages").nonNullish
              then [("pageNumber", getJ md "pages")] else [])))
        else lookupKey md "sourceTrace") ∧
    (∀ (text : String) (md : List (String × JVal)) (m : ExtractedMaterial),
      m ∈ parseMaterialData text md →
      getTrace m = lookupKey (mdRawData md) "sourceTrace" ∨
      (parseMaterialData text md =
        [{ materialType := none, dimensions := none, quantity := none,
           annotations := some (jsTrim text), rawData := some md, confidence := none }] ∧
        getTrace m = lookupKey md "sourceTrace")) := by
  refine ⟨?_, ?_, ?_⟩
  · intro row m h
    simp only [parseTableRow] at h
    repeat' split at h
    all_goals
      first
        | exact absurd h (fun hh => Option.noConfusion hh)
        | rw [← Option.some.inj h]
  · intro md
    by_cases hc : (getJ md "source").truthy ∧ ¬ (getJ md "sourceTrace").truthy
    · simp only [mdRawData]
      rw [if_pos hc, if_pos hc]
      exact lookupKey_setKey_self md "sourceTrace" _
    · simp only [mdRawData]
      rw [if_neg hc, if_neg hc]
  · intro text md m hm
    simp only [parseMaterialData] at hm
    split at hm
    · rename_i hcond
      right
      rw [List.mem_singleton] at hm
      refine ⟨?_, ?_⟩
      · simp only [parseMaterialData]
        rw [if_pos hcond]
      · rw [hm]
        rfl
    · rcases foldl_append_toList_mem _ _ _ _ hm with h | ⟨sec, _, he⟩
      · simp at h
      · exact Or.inl (sectionRecord_trace_eq sec md m he)

/-- Witness for `sourceTrace_contract`: the table row `["glass", "5"]` of
table `S1` row 2, and the free-text record parsed from `"glass"` with
metadata `{source: "pdf"}`, whose trace is that of the constructed
`rawData`. -/
theorem sourceTrace_contract_witness :
    (⟨some "glass", none, some 5, some "glass",
      some [("source", .str "dwg"), ("method", .str "table"),
        ("sourceTrace", .obj [("entityType", .str "ACAD_TABLE"), ("tableName", .str "S1"),
          ("rowIndex", .num 2)])], some .confirmed⟩ : ExtractedMaterial).rawData =
      some [("source", .str "dwg"), ("method", .str "table"),
        ("sourceTrace", .obj [("entityType", .str "ACAD_TABLE"),
          ("tableName", jsOptStr (some "S1")), ("rowIndex", .num ((2 : Int) : ℚ))])] ∧
    (getTrace ⟨some "glass", none, none, some "glass",
        some [("source", .str "pdf"),
          ("sourceTrace", .obj [("source", .str "pdf"), ("method", .str "pdf")])],
        some .missing⟩ =
        lookupKey (mdRawData [("source", .str "pdf")]) "sourceTrace" ∨
      (parseMaterialData "glass" [("source", .str "pdf")] =
        [{ materialType := none, dimensions := none, quantity := none,
           annotations := some (jsTrim "glass"), rawData := some [("source", .str "pdf")],
           confidence := none }] ∧
        getTrace ⟨some "glass", none, none, some "glass",
          some [("source", .str "pdf"),
            ("sourceTrace", .obj [("source", .str "pdf"), ("method", .str "pdf")])],
          some .missing⟩ = lookupKey [("source", .str "pdf")] "sourceTrace")) :=
  ⟨sourceTrace_contract.1 ⟨["glass", "5"], none, 2, some "S1"⟩ _ rfl,
   sourceTrace_contract.2.2 "glass" [("source", .str "pdf")] _ (List.Mem.head _)⟩

theorem stringMk_eq_empty_iff (l : List Char) : String.mk l = "" ↔ l = [] := by
  constructor
  · intro h
    exact congrArg String.data h
  · intro h
    rw [h]

theorem string_length_zero {s : String} (h : s.length = 0) : s = "" := by
  cases s with
  | mk data =>
    cases data with
    | nil => rfl
    | cons c cs => simp [String.length] at h

theorem trimL_eq_nil_iff (cs : List Char) :
    trimL cs = [] ↔ ∀ c ∈ cs, jsIsSpace c = true := by
  unfold trimL
  rw [List.reverse_eq_nil_iff, List.dropWhile_eq_nil_iff]
  simp only [List.mem_reverse]
  constructor
  · intro h c hc
    have hsplit : c ∈ List.takeWhile jsIsSpace cs ++ List.dropWhile jsIsSpace cs := by
      rw [List.takeWhile_append_dropWhile]
      exact hc
    rcases List.mem_append.mp hsplit with h1 | h2
    · exact List.mem_takeWhile_imp h1
    · exact h c h2
  · intro h c hc
    exact h c ((List.dropWhile_sublist jsIsSpace).subset hc)

theorem jsTrim_eq_empty_iff (s : String) :
    jsTrim s = "" ↔ ∀ c ∈ s.data, jsIsSpace c = true := by
  rw [jsTrim, stringMk_eq_empty_iff, trimL_eq_nil_iff]

theorem splitParasL_allspace (cs : List Char) (h : ∀ c ∈ cs, jsIsSpace c = true) :
    ∀ p ∈ splitParasL cs, ∀ c ∈ p, jsIsSpace c = true := by
  induction cs using splitParasL.induct with
  | case1 =>
    intro p hp c hc
    simp only [splitParasL, List.mem_singleton] at hp
    rw [hp] at hc
    simp at hc
  | case2 rest ih =>
    intro p hp c hc
    rw [show splitParasL ('\n' :: '\n' :: rest) = [] :: splitParasL rest from rfl] at hp
    rcases List.mem_cons.mp hp with h1 | h2
    · rw [h1] at hc
      simp at hc
    · exact ih (fun d hd => h d (by simp [hd])) p h2 c hc
  | case3 rest ih =>
    intro p hp c hc
    rw [show splitParasL ('\r' :: '\n' :: '\r' :: '\n' :: rest) = [] :: splitParasL rest
      from rfl] at hp
    rcases List.mem_cons.mp hp with h1 | h2
    · rw [h1] at hc
      simp at hc
    · exact ih (fun d hd => h d (by simp [hd])) p h2 c hc
  | case4 c0 rest hx1 hx2 heq ih =>
    intro p hp c hc
    rw [splitParasL.eq_4 c0 rest hx1 hx2, heq] at hp
    simp only [List.mem_singleton] at hp
    rw [hp] at hc
    rcases List.mem_singleton.mp hc with hc1
    rw [hc1]
    exact h c0 (List.mem_cons_self _ _)
  | case5 c0 rest hx1 hx2 q qs heq ih =>
    intro p hp c hc
    rw [splitParasL.eq_4 c0 rest hx1 hx2, heq] at hp
    rcases List.mem_cons.mp hp with h1 | h2
    · rw [h1] at hc
      rcases List.mem_cons.mp hc with hc1 | hc2
      · rw [hc1]
        exact h c0 (List.mem_cons_self _ _)
      · refine ih (fun d hd => h d (List.mem_cons_of_mem _ hd)) q ?_ c hc2
        rw [heq]
        exact List.mem_cons_self _ _
    · refine ih (fun d hd => h d (List.mem_cons_of_mem _ hd)) p ?_ c hc
      rw [heq]
      exact List.mem_cons_of_mem _ h2

theorem splitLinesL_allspace (cs : List Char) (h : ∀ c ∈ cs, jsIsSpace c = true) :
    ∀ p ∈ splitLinesL cs, ∀ c ∈ p, jsIsSpace c = true := by
  induction cs using splitLinesL.induct with
  | case1 =>
    intro p hp c hc
    simp only [splitLinesL, List.mem_singleton] at hp
    rw [hp] at hc
    simp at hc
  | case2 rest ih =>
    intro p hp c hc
    rw [show splitLinesL ('\r' :: '\n' :: rest) = [] :: splitLinesL rest from rfl] at hp
    rcases List.mem_cons.mp hp with h1 | h2
    · rw [h1] at hc
      simp at hc
    · exact ih (fun d hd => h d (by simp [hd])) p h2 c hc
  | case3 rest ih =>
    intro p hp c hc
    rw [show splitLinesL ('\n' :: rest) = [] :: splitLinesL rest from rfl] at hp
    rcases List.mem_cons.mp hp with h1 | h2
    · rw [h1] at hc
      simp at hc
    · exact ih (fun d hd => h d (by simp [hd])) p h2 c hc
  | case4 c0 rest hx1 hx2 heq ih =>
    intro p hp c hc
    rw [splitLinesL.eq_4 c0 rest hx1 hx2, heq] at hp
    simp only [List.mem_singleton] at hp
    rw [hp] at hc
    rcases List.mem_singleton.mp hc with hc1
    rw [hc1]
    exact h c0 (List.mem_cons_self _ _)
  | case5 c0 rest hx1 hx2 q qs heq ih =>
    intro p hp c hc
    rw [splitLinesL.eq_4 c0 rest hx1 hx2, heq] at hp
    rcases List.mem_cons.mp hp with h1 | h2
    · rw [h1] at hc
      rcases List.mem_cons.mp hc with hc1 | hc2
      · rw [hc1]
        exact h c0 (List.mem_cons_self _ _)
      · refine ih (fun d hd => h d (List.mem_cons_of_mem _ hd)) q ?_ c hc2
        rw [heq]
        exact List.mem_cons_self _ _
    · refine ih (fun d hd => h d (List.mem_cons_of_mem _ hd)) p ?_ c hc
      rw [heq]
      exact List.mem_cons_of_mem _ h2

theorem textSections_of_trim_empty (text : String) (h : jsTrim text = "") :
    textSections text = [] := by
  have hall := (jsTrim_eq_empty_iff text).mp h
  have hpar : (splitParas text).filter (fun s => 0 < (jsTrim s).length) = [] := by
    apply List.filter_eq_nil_iff.mpr
    intro s hs
    obtain ⟨piece, hpc, hmk⟩ := List.mem_map.mp hs
    have hst : jsTrim s = "" := by
      rw [← hmk]
      exact (jsTrim_eq_empty_iff _).mpr
        (fun c hc => splitParasL_allspace _ hall piece hpc c hc)
    simp [hst]
  have hlines : ((splitLines text).map jsTrim).filter (fun l => 0 < l.length) = [] := by
    apply List.filter_eq_nil_iff.mpr
    intro s hs
    obtain ⟨line, hlc, hmk⟩ := List.mem_map.mp hs
    obtain ⟨piece, hpc, hmk2⟩ := List.mem_map.mp hlc
    have hst : s = "" := by
      rw [← hmk, ← hmk2]
      exact (jsTrim_eq_empty_iff _).mpr
        (fun c hc => splitLinesL_allspace _ hall piece hpc c hc)
    simp [hst]
  simp only [textSections]
  rw [hpar]
  simp only [List.length_nil, Nat.lt_irrefl, if_false, List.foldl_cons, List.foldl_nil,
    List.nil_append]
  rw [hlines]
  split
  · rename_i hcond
    rw [h] at hcond
    exact absurd hcond.2 (by decide)
  · rfl

theorem foldl_append_toList_nil {α β : Type} (f : α → Option β) (l : List α)
    (acc : List β) (h : ∀ x ∈ l, f x = none) :
    l.foldl (fun ms x => ms ++ (f x).toList) acc = acc := by
  induction l generalizing acc with
  | nil => rfl
  | cons a rest ih =>
    rw [List.foldl_cons, h a (List.mem_cons_self _ _)]
    simp only [Option.toList_none, List.append_nil]
    exact ih _ (fun x hx => h x (List.mem_cons_of_mem _ hx))

/-- C1: `parseMaterialData` returns an empty list exactly for empty or
whitespace-only input — in particular for `""` and `"   "` with any
metadata — and for non-empty trimmed input from which no section yields any
extraction signal, the result is exactly one fallback record whose
annotations equal the trimmed input, with materialType, dimensions and
quantity all absent. -/
theorem parseMaterialData_empty_contract :
    (∀ md : List (String × JVal), parseMaterialData "" md = [] ∧
      parseMaterialData "   " md = []) ∧
    (∀ (text : String) (md : List (String × JVal)),
      parseMaterialData text md = [] ↔ jsTrim text = "") ∧
    (∀ (text : String) (md : List (String × JVal)), jsTrim text ≠ "" →
      (∀ sec ∈ textSections text, extractMaterialType sec = none ∧
        extractDimensions sec = [] ∧ extractQuantities sec = []) →
      parseMaterialData text md =
        [{ materialType := none, dimensions := none, quantity := none,
           annotations := some (jsTrim text), rawData := some md, confidence := none }]) := by
  refine ⟨fun md => ⟨rfl, rfl⟩, fun text md => ⟨?_, ?_⟩, fun text md hne hsec => ?_⟩
  · intro h
    simp only [parseMaterialData] at h
    split at h
    · exact absurd h (by simp)
    · rename_i hcond
      by_contra hne
      apply hcond
      refine ⟨by rw [h]; rfl, ?_⟩
      exact Nat.pos_of_ne_zero (fun h0 => hne (string_length_zero h0))
  · intro h
    have hts := textSections_of_trim_empty text h
    simp only [parseMaterialData, hts, List.foldl_nil]
    rw [if_neg]
    rintro ⟨_, h2⟩
    rw [h] at h2
    simp [String.length] at h2
  · have hmz : (textSections text).foldl
        (fun ms sec => ms ++ (sectionRecord sec md).toList) [] = [] := by
      apply foldl_append_toList_nil
      intro sec hs
      obtain ⟨h1, h2, h3⟩ := hsec sec hs
      simp [sectionRecord, h1, h2, h3, tru]
    simp only [parseMaterialData, hmz]
    rw [if_pos]
    exact ⟨rfl, Nat.pos_of_ne_zero (fun h0 => hne (string_length_zero h0))⟩

/-- Witness for `parseMaterialData_empty_contract` at the unparsable input
`"qwv 8492"` with metadata `{source: "pdf"}`. -/
theorem parseMaterialData_empty_contract_witness :
    jsTrim "qwv 8492" ≠ "" ∧
    parseMaterialData "qwv 8492" [("source", JVal.str "pdf")] =
      [{ materialType := none, dimensions := none, quantity := none,
         annotations := some (jsTrim "qwv 8492"),
         rawData := some [("source", JVal.str "pdf")], confidence := none }] :=
  ⟨by decide, parseMaterialData_empty_contract.2.2 "qwv 8492" [("source", JVal.str "pdf")]
    (by decide) (by decide)⟩

/-- Key-insertion order of a JavaScript `Map`: a new key is appended. -/
def addKey (ks : List String) (k : String) : List String :=
  if k ∈ ks then ks else ks ++ [k]

theorem insertGrouped_keys (acc : List (String × List ExtractedMaterial)) (k : String)
    (m : ExtractedMaterial) :
    (insertGrouped acc k m).map Prod.fst = addKey (acc.map Prod.fst) k := by
  induction acc with
  | nil => simp [insertGrouped, addKey]
  | cons p rest ih =>
    obtain ⟨pk, pg⟩ := p
    by_cases h : pk = k
    · subst h
      simp [insertGrouped, addKey]
    · simp only [insertGrouped, if_neg h, List.map_cons, ih, addKey]
      have h3 : ¬ k = pk := fun hh => h hh.symm
      by_cases h2 : k ∈ rest.map Prod.fst <;> simp [h2, h3]

theorem insertGrouped_groups (acc : List (String × List ExtractedMaterial)) (k : String)
    (m : ExtractedMaterial)
    (hne : ∀ kg ∈ acc, kg.2 ≠ [])
    (hkey : ∀ kg ∈ acc, ∀ x ∈ kg.2, normalizeKey x = kg.1)
    (hmk : normalizeKey m = k) :
    (∀ kg ∈ insertGrouped acc k m, kg.2 ≠ []) ∧
    (∀ kg ∈ insertGrouped acc k m, ∀ x ∈ kg.2, normalizeKey x = kg.1) := by
  induction acc with
  | nil =>
    constructor
    · intro kg hkg
      simp [insertGrouped] at hkg
      simp [hkg]
    · intro kg hkg x hx
      simp [insertGrouped] at hkg
      rw [hkg] at hx ⊢
      simp only [List.mem_singleton] at hx
      rw [hx]
      exact hmk
  | cons p rest ih =>
    obtain ⟨pk, pg⟩ := p
    have hne2 : ∀ kg ∈ rest, kg.2 ≠ [] := fun kg hkg => hne kg (List.mem_cons_of_mem _ hkg)
    have hkey2 : ∀ kg ∈ rest, ∀ x ∈ kg.2, normalizeKey x = kg.1 :=
      fun kg hkg => hkey kg (List.mem_cons_of_mem _ hkg)
    obtain ⟨ihne, ihkey⟩ := ih hne2 hkey2
    by_cases h : pk = k
    · subst h
      constructor
      · intro kg hkg
        simp only [insertGrouped, if_pos rfl] at hkg
        rcases List.mem_cons.mp hkg with h1 | h2
        · rw [h1]
          simp
        · exact hne2 kg h2
      · intro kg hkg x hx
        simp only [insertGrouped, if_pos rfl] at hkg
        rcases List.mem_cons.mp hkg with h1 | h2
        · rw [h1] at hx ⊢
          simp only at hx ⊢
          rcases List.mem_append.mp hx with h3 | h4
          · exact hkey (pk, pg) (List.mem_cons_self _ _) x h3
          · rw [List.mem_singleton.mp h4, hmk]
        · exact hkey2 kg h2 x hx
    · constructor
      · intro kg hkg
        simp only [insertGrouped, if_neg h] at hkg
        rcases List.mem_cons.mp hkg with h1 | h2
        · rw [h1]
          exact hne (pk, pg) (List.mem_cons_self _ _)
        · exact ihne kg h2
      · intro kg hkg x hx
        simp only [insertGrouped, if_neg h] at hkg
        rcases List.mem_cons.mp hkg with h1 | h2
        · rw [h1] at hx ⊢
          exact hkey (pk, pg) (List.mem_cons_self _ _) x hx
        · exact ihkey kg h2 x hx

theorem groupByKey_inv (ms : List ExtractedMaterial) :
    (∀ kg ∈ groupByKey ms, kg.2 ≠ []) ∧
    (∀ kg ∈ groupByKey ms, ∀ x ∈ kg.2, normalizeKey x = kg.1) := by
  suffices hgen : ∀ acc, (∀ kg ∈ acc, kg.2 ≠ []) →
      (∀ kg ∈ acc, ∀ x ∈ kg.2, normalizeKey x = kg.1) →
      (∀ kg ∈ ms.foldl (fun a m => insertGrouped a (normalizeKey m) m) acc, kg.2 ≠ []) ∧
      (∀ kg ∈ ms.foldl (fun a m => insertGrouped a (normalizeKey m) m) acc,
        ∀ x ∈ kg.2, normalizeKey x = kg.1) by
    exact hgen [] (by simp) (by simp)
  induction ms with
  | nil => intro acc h1 h2; exact ⟨h1, h2⟩
  | cons a rest ih =>
    intro acc h1 h2
    obtain ⟨h3, h4⟩ := insertGrouped_groups acc (normalizeKey a) a h1 h2 rfl
    exact ih _ h3 h4

theorem groupByKey_keys (ms : List ExtractedMaterial) :
    (groupByKey ms).map Prod.fst = (ms.map normalizeKey).foldl addKey [] := by
  suffices hgen : ∀ acc, (ms.foldl (fun a m => insertGrouped a (normalizeKey m) m) acc).map
      Prod.fst = (ms.map normalizeKey).foldl addKey (acc.map Prod.fst) from hgen []
  induction ms with
  | nil => intro acc; rfl
  | cons a rest ih =>
    intro acc
    simp only [List.foldl_cons, List.map_cons, ih, insertGrouped_keys]

theorem foldl_addKey_length_le (l : List String) :
    ∀ ks : List String, (l.foldl addKey ks).length ≤ ks.length + l.length := by
  induction l with
  | nil => intro ks; simp
  | cons a rest ih =>
    intro ks
    rw [List.foldl_cons]
    refine le_trans (ih (addKey ks a)) ?_
    unfold addKey
    split
    · simp only [List.length_cons]
      omega
    · simp only [List.length_append, List.length_cons, List.length_nil]
      omega

theorem foldl_addKey_length_eq_iff (l : List String) :
    ∀ ks : List String, (l.foldl addKey ks).length = ks.length + l.length ↔
      (l.Nodup ∧ ∀ x ∈ l, x ∉ ks) := by
  induction l with
  | nil => intro ks; simp
  | cons a rest ih =>
    intro ks
    rw [List.foldl_cons]
    by_cases ha : a ∈ ks
    · rw [show addKey ks a = ks from if_pos ha]
      constructor
      · intro h
        exfalso
        have hle := foldl_addKey_length_le rest ks
        rw [h] at hle
        simp only [List.length_cons] at hle
        omega
      · rintro ⟨_, hall⟩
        exact absurd ha (hall a (List.mem_cons_self _ _))
    · rw [show addKey ks a = ks ++ [a] from if_neg ha]
      have e : ks.length + (a :: rest).length = (ks ++ [a]).length + rest.length := by
        simp only [List.length_append, List.length_cons, List.length_nil]
        omega
      rw [e, ih (ks ++ [a])]
      constructor
      · rintro ⟨hnd, hall⟩
        have hanotin : a ∉ rest := by
          intro hmem
          have := hall a hmem
          simp at this
        refine ⟨List.nodup_cons.mpr ⟨hanotin, hnd⟩, fun x hx => ?_⟩
        rcases List.mem_cons.mp hx with h1 | h2
        · rw [h1]; exact ha
        · intro hk
          have := hall x h2
          simp at this
          exact this.1 hk
      · rintro ⟨hnd, hall⟩
        obtain ⟨hanotin, hnd2⟩ := List.nodup_cons.mp hnd
        refine ⟨hnd2, fun x hx => ?_⟩
        simp only [List.mem_append, List.mem_singleton]
        rintro (h1 | h2)
        · exact hall x (List.mem_cons_of_mem _ hx) h1
        · exact hanotin (h2 ▸ hx)

theorem foldl_addKey_nodup (l : List String) :
    ∀ ks : List String, ks.Nodup → (l.foldl addKey ks).Nodup := by
  induction l with
  | nil => intro ks h; exact h
  | cons a rest ih =>
    intro ks h
    rw [List.foldl_cons]
    apply ih
    unfold addKey
    split
    · exact h
    · rename_i hnin
      simp [List.nodup_append, h, hnin]

theorem foldl_append_toList_eq_filterMap {α β : Type} (f : α → Option β) (l : List α) :
    ∀ acc, l.foldl (fun ms x => ms ++ (f x).toList) acc = acc ++ l.filterMap f := by
  induction l with
  | nil => intro acc; simp
  | cons a rest ih =>
    intro acc
    rw [List.foldl_cons, ih]
    cases hf : f a <;> simp [hf, List.filterMap_cons]

theorem dedup_eq_filterMap (ms : List ExtractedMaterial) :
    deduplicateMaterials ms = (groupByKey ms).filterMap (fun kg => mergeGroup kg.2) := by
  unfold deduplicateMaterials
  exact foldl_append_toList_eq_filterMap _ _ []

theorem foldl_ite_mem {α : Type} (f : α → α → Prop) [DecidableRel f] (l : List α) :
    ∀ init : α, (l.foldl (fun a b => if f a b then a else b) init) ∈ init :: l := by
  induction l with
  | nil => intro init; simp
  | cons a rest ih =>
    intro init
    rw [List.foldl_cons]
    rcases List.mem_cons.mp (ih (if f init a then init else a)) with h | h
    · rw [h]
      split
      · exact List.mem_cons_self _ _
      · exact List.mem_cons_of_mem _ (List.mem_cons_self _ _)
    · exact List.mem_cons_of_mem _ (List.mem_cons_of_mem _ h)

theorem mergeGroup_fields (g0 : ExtractedMaterial) (grest : List ExtractedMaterial)
    (x : ExtractedMaterial) (hx : mergeGroup (g0 :: grest) = some x) :
    ∃ best ∈ g0 :: grest, x.materialType = best.materialType ∧
      x.dimensions = best.dimensions ∧ x.quantity = best.quantity := by
  refine ⟨grest.foldl (fun a b =>
    if CONFIDENCE_ORDER b.confidence ≤ CONFIDENCE_ORDER a.confidence then a else b) g0,
    foldl_ite_mem _ grest g0, ?_⟩
  simp only [mergeGroup] at hx
  split at hx
  · rw [← Option.some.inj hx]
    exact ⟨rfl, rfl, rfl⟩
  · rw [← Option.some.inj hx]
    exact ⟨rfl, rfl, rfl⟩

theorem mergeGroup_key (g : List ExtractedMaterial) (x : ExtractedMaterial) (k : String)
    (hk : ∀ m ∈ g, normalizeKey m = k) (hx : mergeGroup g = some x) :
    normalizeKey x = k := by
  cases g with
  | nil => exact absurd hx (by simp [mergeGroup])
  | cons g0 grest =>
    obtain ⟨best, hmem, h1, h2, h3⟩ := mergeGroup_fields g0 grest x hx
    rw [show normalizeKey x = normalizeKey best from by rw [normalizeKey, normalizeKey, h1, h2, h3]]
    exact hk best hmem
theorem filterMap_mergeGroup_keys (gs : List (String × List ExtractedMaterial))
    (hne : ∀ kg ∈ gs, kg.2 ≠ [])
    (hkey : ∀ kg ∈ gs, ∀ x ∈ kg.2, normalizeKey x = kg.1) :
    (gs.filterMap (fun kg => mergeGroup kg.2)).map normalizeKey = gs.map Prod.fst := by
  induction gs with
  | nil => simp
  | cons kg rest ih =>
    have hgne : kg.2 ≠ [] := hne kg (List.mem_cons_self _ _)
    obtain ⟨x, hx⟩ : ∃ x, mergeGroup kg.2 = some x := by
      cases hg2 : kg.2 with
      | nil => exact absurd hg2 hgne
      | cons a rest2 =>
        have hs : (mergeGroup (a :: rest2)).isSome = true := by
          simp only [mergeGroup]
          split <;> rfl
        exact Option.isSome_iff_exists.mp hs
    simp only [List.filterMap_cons, hx, List.map_cons]
    rw [mergeGroup_key kg.2 x kg.1 (hkey kg (List.mem_cons_self _ _)) hx]
    rw [ih (fun p hp => hne p (List.mem_cons_of_mem _ hp))
      (fun p hp => hkey p (List.mem_cons_of_mem _ hp))]

theorem dedup_map_key (ms : List ExtractedMaterial) :
    (deduplicateMaterials ms).map normalizeKey = (groupByKey ms).map Prod.fst := by
  rw [dedup_eq_filterMap]
  exact filterMap_mergeGroup_keys _ (groupByKey_inv ms).1 (groupByKey_inv ms).2

theorem dedup_length_eq (ms : List ExtractedMaterial) :
    (deduplicateMaterials ms).length = (groupByKey ms).length := by
  have h := congrArg List.length (dedup_map_key ms)
  simpa using h

/-- C9: deduplication never grows the list, and it preserves the length
exactly when the normalized deduplication keys of the input records are
pairwise distinct. -/
theorem deduplicateMaterials_length (X : List ExtractedMaterial) :
    (deduplicateMaterials X).length ≤ X.length ∧
    ((deduplicateMaterials X).length = X.length ↔
      List.Pairwise (fun a b => a ≠ b) (X.map normalizeKey)) := by
  have hlen : (deduplicateMaterials X).length =
      ((X.map normalizeKey).foldl addKey []).length := by
    rw [dedup_length_eq]
    have h := congrArg List.length (groupByKey_keys X)
    simpa using h
  constructor
  · rw [hlen]
    have h := foldl_addKey_length_le (X.map normalizeKey) []
    simpa using h
  · rw [hlen]
    have h := foldl_addKey_length_eq_iff (X.map normalizeKey) []
    simp only [List.length_nil, Nat.zero_add, List.not_mem_nil, not_false_iff,
      forall_const, and_true] at h
    rw [show X.length = (X.map normalizeKey).length from (List.length_map _ _).symm]
    rw [h]
    constructor
    · intro hnd
      exact hnd.1
    · intro hp
      exact ⟨hp, fun x hx => trivial⟩

theorem setKey_setKey_same (l : List (String × JVal)) (k : String) (v w : JVal) :
    setKey (setKey l k v) k w = setKey l k w := by
  induction l with
  | nil => simp [setKey]
  | cons p rest ih =>
    obtain ⟨pk, pv⟩ := p
    by_cases h : pk = k
    · subst h
      simp [setKey]
    · simp [setKey, h, ih]


theorem setKey_lookup_eq (l : List (String × JVal)) (key : String) (v : JVal)
    (h : lookupKey l key = some v) : setKey l key v = l := by
  induction l with
  | nil => simp [lookupKey] at h
  | cons p rest ih =>
    obtain ⟨pk, pv⟩ := p
    by_cases hk : pk = key
    · subst hk
      simp [lookupKey] at h
      simp [setKey, h]
    · simp [lookupKey, hk] at h
      simp [setKey, hk, ih h]

theorem mergeSingle_none (m : ExtractedMaterial) (hg : getTrace m = none) :
    mergeSingle m = m := by
  obtain ⟨mt, dims, qty, ann, raw, conf⟩ := m
  rcases ann with _ | s
  · simp [mergeSingle, mergeGroup, hg, firstDedup, joinSep]
  · by_cases hs : s = ""
    · subst hs
      simp [mergeSingle, mergeGroup, hg, firstDedup, joinSep]
    · simp [mergeSingle, mergeGroup, hg, firstDedup, joinSep, hs]

theorem mergeSingle_false (m : ExtractedMaterial) (t : JVal)
    (hg : getTrace m = some t) (ht : JVal.truthy t = false) :
    mergeSingle m = m := by
  obtain ⟨mt, dims, qty, ann, raw, conf⟩ := m
  rcases ann with _ | s
  · simp [mergeSingle, mergeGroup, hg, ht, firstDedup, joinSep]
  · by_cases hs : s = ""
    · subst hs
      simp [mergeSingle, mergeGroup, hg, ht, firstDedup, joinSep]
    · simp [mergeSingle, mergeGroup, hg, ht, firstDedup, joinSep, hs]

theorem mergeSingle_some (m : ExtractedMaterial) (t : JVal)
    (hg : getTrace m = some t) (ht : JVal.truthy t = true) :
    mergeSingle m = { m with rawData := some (setKey (setKey (m.rawData.getD [])
      "sourceTrace" t) "sourceTraceCount" (JVal.num ((1 : ℕ) : ℚ))) } := by
  obtain ⟨mt, dims, qty, ann, raw, conf⟩ := m
  rcases ann with _ | s
  · simp [mergeSingle, mergeGroup, hg, ht, firstDedup, joinSep]
  · by_cases hs : s = ""
    · subst hs
      simp [mergeSingle, mergeGroup, hg, ht, firstDedup, joinSep]
    · simp [mergeSingle, mergeGroup, hg, ht, firstDedup, joinSep, hs]

theorem normalizeKey_mergeSingle (m : ExtractedMaterial) :
    normalizeKey (mergeSingle m) = normalizeKey m := by
  rcases hg : getTrace m with _ | t
  · rw [mergeSingle_none m hg]
  · cases ht : JVal.truthy t with
    | false => rw [mergeSingle_false m t hg ht]
    | true =>
      rw [mergeSingle_some m t hg ht]
      rfl

theorem mergeSingle_idem (m : ExtractedMaterial) :
    mergeSingle (mergeSingle m) = mergeSingle m := by
  rcases hg : getTrace m with _ | t
  · rw [mergeSingle_none m hg, mergeSingle_none m hg]
  · cases ht : JVal.truthy t with
    | false => rw [mergeSingle_false m t hg ht, mergeSingle_false m t hg ht]
    | true =>
      have e1 := mergeSingle_some m t hg ht
      have h1 : lookupKey (setKey (setKey (m.rawData.getD []) "sourceTrace" t)
          "sourceTraceCount" (JVal.num ((1 : ℕ) : ℚ))) "sourceTrace" = some t := by
        rw [lookupKey_setKey_ne _ _ _ _ (by decide), lookupKey_setKey_self]
      have hg2 : getTrace { m with rawData := some (setKey (setKey (m.rawData.getD [])
          "sourceTrace" t) "sourceTraceCount" (JVal.num ((1 : ℕ) : ℚ))) } = some t := h1
      have e2 := mergeSingle_some _ t hg2 ht
      rw [e1, e2]
      show ({ m with rawData := some (setKey (setKey (setKey (setKey (m.rawData.getD [])
        "sourceTrace" t) "sourceTraceCount" (JVal.num ((1 : ℕ) : ℚ))) "sourceTrace" t)
        "sourceTraceCount" (JVal.num ((1 : ℕ) : ℚ))) } : ExtractedMaterial) = _
      rw [setKey_lookup_eq _ _ _ h1, setKey_lookup_eq _ _ _ (lookupKey_setKey_self _ _ _)]

theorem dedup_keys_nodup (ms : List ExtractedMaterial) :
    ((deduplicateMaterials ms).map normalizeKey).Nodup := by
  rw [dedup_map_key, groupByKey_keys]
  exact foldl_addKey_nodup _ [] (by simp)

theorem insertGrouped_not_mem (acc : List (String × List ExtractedMaterial))
    (key : String) (m : ExtractedMaterial) (h : key ∉ acc.map Prod.fst) :
    insertGrouped acc key m = acc ++ [(key, [m])] := by
  induction acc with
  | nil => rfl
  | cons p rest ih =>
    obtain ⟨k, g⟩ := p
    simp only [List.map_cons, List.mem_cons, not_or] at h
    simp [insertGrouped, Ne.symm h.1, ih h.2]

theorem foldl_insertGrouped_singleton (ms : List ExtractedMaterial) :
    ∀ acc : List (String × List ExtractedMaterial),
      (ms.map normalizeKey).Nodup →
      (∀ x ∈ ms, normalizeKey x ∉ acc.map Prod.fst) →
      ms.foldl (fun a m => insertGrouped a (normalizeKey m) m) acc =
        acc ++ ms.map (fun m => (normalizeKey m, [m])) := by
  induction ms with
  | nil =>
    intro acc _ _
    simp
  | cons a rest ih =>
    intro acc hnd hacc
    simp only [List.map_cons, List.nodup_cons] at hnd
    have hstep := insertGrouped_not_mem acc (normalizeKey a) a
      (hacc a (List.mem_cons_self a rest))
    have hacc2 : ∀ x ∈ rest, normalizeKey x ∉
        (acc ++ [(normalizeKey a, [a])]).map Prod.fst := by
      intro x hx hmem
      simp only [List.map_append] at hmem
      rcases List.mem_append.mp hmem with hmem | hmem
      · exact hacc x (List.mem_cons_of_mem a hx) hmem
      · have hxa : normalizeKey x = normalizeKey a := by simpa using hmem
        exact hnd.1 (hxa ▸ List.mem_map_of_mem normalizeKey hx)
    simp only [List.foldl_cons]
    rw [hstep, ih _ hnd.2 hacc2]
    simp

theorem groupByKey_of_nodup (ms : List ExtractedMaterial)
    (h : (ms.map normalizeKey).Nodup) :
    groupByKey ms = ms.map (fun m => (normalizeKey m, [m])) := by
  have hg := foldl_insertGrouped_singleton ms [] h (fun x _ hx => by simp at hx)
  simpa [groupByKey] using hg

theorem mergeGroup_singleton (m : ExtractedMaterial) :
    mergeGroup [m] = some (mergeSingle m) := by
  cases hs : mergeGroup [m] with
  | none =>
    have hss : (mergeGroup [m]).isSome = true := by
      simp only [mergeGroup]
      split <;> rfl
    rw [hs] at hss
    exact absurd hss (by simp)
  | some x =>
    rw [mergeSingle, hs]
    rfl

theorem dedup_of_nodup_keys (ms : List ExtractedMaterial)
    (h : (ms.map normalizeKey).Nodup) :
    deduplicateMaterials ms = ms.map mergeSingle := by
  rw [dedup_eq_filterMap, groupByKey_of_nodup ms h, List.filterMap_map]
  have hfun : ((fun kg : String × List ExtractedMaterial => mergeGroup kg.2) ∘
      fun m => (normalizeKey m, [m])) = some ∘ mergeSingle :=
    funext fun m => mergeGroup_singleton m
  rw [hfun, List.filterMap_eq_map]

/-- Two materials with the same deduplication key, each carrying a truthy
`rawData.sourceTrace` (as records produced by `parseMaterialData` from two
different sources would). -/
def cexDupList : List ExtractedMaterial :=
  [{ materialType := some "steel", dimensions := none, quantity := none,
     annotations := none,
     rawData := some [("source", JVal.str "pdf"),
       ("sourceTrace", JVal.obj [("source", JVal.str "pdf"),
         ("method", JVal.str "pdf")])],
     confidence := some .confirmed },
   { materialType := some "steel", dimensions := none, quantity := none,
     annotations := none,
     rawData := some [("source", JVal.str "ocr"),
       ("sourceTrace", JVal.obj [("source", JVal.str "ocr"),
         ("method", JVal.str "ocr")])],
     confidence := some .confirmed }]

/-- C2 counterexample: `deduplicateMaterials` is not idempotent.  Merging two
same-key materials that both carry a source trace stamps the merged record
with `sourceTraceCount: 2`; running the deduplicator again on its own output
re-merges the now-singleton group and overwrites `sourceTraceCount` with the
new group's trace count 1, so the second pass changes the record. -/
theorem deduplicateMaterials_not_idempotent_cex :
    deduplicateMaterials (deduplicateMaterials cexDupList) ≠
      deduplicateMaterials cexDupList := by
  intro h
  exact absurd (congrArg (List.map traceCount) h) (by decide)

/-- C2 (amended): `deduplicateMaterials` is not idempotent — a second pass
resets the `sourceTraceCount` of an already-merged traced record to 1 — but
from the second pass on the output is a fixed point: a third application of
`deduplicateMaterials` returns the second application's output unchanged,
annotations and rawData included. -/
theorem deduplicateMaterials_stabilizes (X : List ExtractedMaterial) :
    deduplicateMaterials (deduplicateMaterials (deduplicateMaterials X)) =
      deduplicateMaterials (deduplicateMaterials X) := by
  have h1 := dedup_keys_nodup X
  have e2 := dedup_of_nodup_keys _ h1
  have h2 : (((deduplicateMaterials X).map mergeSingle).map normalizeKey).Nodup := by
    rw [List.map_map, show normalizeKey ∘ mergeSingle = normalizeKey from
      funext normalizeKey_mergeSingle]
    exact h1
  rw [e2, dedup_of_nodup_keys _ h2, List.map_map,
    show mergeSingle ∘ mergeSingle = mergeSingle from funext mergeSingle_idem]
